import Mathlib

/-!
Shallow embedding of the Lorenz-curve / Gini dashboard (src/app.py).

The Manual Lab tab is embedded over the exact rationals: the gate
`current_total = round(sum, 2) == 100.0`, the cumulative coordinates
`cum_y = np.cumsum(np.insert(shares/100, 0, 0))`, the uniform grid
`x_coords = np.linspace(0, 1, n_points + 1)`, the per-segment trapezoid
loop accumulating `area_b`, and `gini = (0.5 - area_b) / 0.5`.

The Simulator tab is embedded over the reals (the exponent is a real
slider value): `get_lorenz_coords` samples `y = x ** p` on
`x = linspace(0, 1, n_points + 1)`, then
`area_sim = np.trapezoid(y_sim, x_sim)` and
`g_sim = (0.5 - area_sim) / 0.5`.
-/

namespace LorenzApp

/-- Embeds Python's round(q, 2) ties-to-even rounding as used at
`current_total = round(edited_df["Income Share"].sum(), 2)`:
the integer nearest to q, ties going to the even integer. -/
def roundHalfEven (q : ℚ) : ℤ :=
  if q - ⌊q⌋ < 1 / 2 then ⌊q⌋
  else if q - ⌊q⌋ > 1 / 2 then ⌊q⌋ + 1
  else if ⌊q⌋ % 2 = 0 then ⌊q⌋ else ⌊q⌋ + 1

/-- round(q, 2): round to the nearest hundredth, ties to even. -/
def round2 (q : ℚ) : ℚ := (roundHalfEven (q * 100) : ℚ) / 100

/-- current_total = round(edited_df["Income Share"].sum(), 2). -/
def current_total (shares : List ℚ) : ℚ := round2 shares.sum

/-- cum_y = np.cumsum(np.insert(shares/100, 0, 0)): the running sums of
shares/100 with a leading 0, i.e. the left scan of addition from 0. -/
def cumY (shares : List ℚ) : List ℚ :=
  (shares.map (fun s => s / 100)).scanl (fun a b => a + b) 0

/-- x_coords = np.linspace(0, 1, n + 1): the list [0/n, 1/n, ..., n/n]. -/
def linspace01 (n : ℕ) : List ℚ :=
  (List.range (n + 1)).map (fun (i : ℕ) => (i : ℚ) / (n : ℚ))

/-- The Manual Lab area loop: base = 1/n_points and, for i in range(n_points),
seg_area = base * ((cum_y[i] + cum_y[i+1]) / 2), accumulated into area_b. -/
def area_b (n : ℕ) (cum : List ℚ) : ℚ :=
  ∑ i in Finset.range n, (1 / (n : ℚ)) * ((cum.getD i 0 + cum.getD (i + 1) 0) / 2)

/-- The pair (Sum of Area B, Gini Coefficient) displayed by the Manual Lab. -/
structure GiniResult where
  areaB : ℚ
  gini : ℚ
  deriving DecidableEq

/-- The Manual Lab computation path: when round(sum, 2) == 100.0 the app
builds cum_y, accumulates area_b and shows gini = (0.5 - area_b) / 0.5;
otherwise no area and no Gini are computed at all. -/
def manualLab (shares : List ℚ) : Option GiniResult :=
  if current_total shares = 100 then
    some ⟨area_b shares.length (cumY shares),
      ((1 : ℚ) / 2 - area_b shares.length (cumY shares)) / (1 / 2)⟩
  else none

/-- The result column of the Manual Lab: the metric and chart when the total
is valid, otherwise the "Awaiting Valid 100% Distribution" placeholder. -/
inductive ManualView where
  | results (r : GiniResult)
  | awaitingValidInput
  deriving DecidableEq

/-- What the result column renders for a given share table. -/
def renderManual (shares : List ℚ) : ManualView :=
  match manualLab shares with
  | some r => ManualView.results r
  | none => ManualView.awaitingValidInput

/-- get_lorenz_coords(n_points, p_value): x = np.linspace(0, 1, n_points + 1)
and y = x ** p_value, given as functions of the sample index 0..n_points. -/
noncomputable def get_lorenz_coords (n_points : ℕ) (p_value : ℝ) : (ℕ → ℝ) × (ℕ → ℝ) :=
  (fun i => (i : ℝ) / n_points, fun i => ((i : ℝ) / n_points) ^ p_value)

/-- area_sim = np.trapezoid(y_sim, x_sim): the sum over adjacent samples of
(x[i+1] - x[i]) * (y[i] + y[i+1]) / 2. -/
noncomputable def area_sim (n_points : ℕ) (p : ℝ) : ℝ :=
  ∑ i in Finset.range n_points,
    ((get_lorenz_coords n_points p).1 (i + 1) - (get_lorenz_coords n_points p).1 i) *
      (((get_lorenz_coords n_points p).2 i + (get_lorenz_coords n_points p).2 (i + 1)) / 2)

/-- g_sim = (0.5 - area_sim) / 0.5. -/
noncomputable def g_sim (n_points : ℕ) (p : ℝ) : ℝ :=
  ((1 : ℝ) / 2 - area_sim n_points p) / (1 / 2)

/-- np.trapezoid(y, x) over rational coordinate lists, as the simulator
applies it: the sum over the len(x) - 1 segments of
(x[i+1] - x[i]) * (y[i] + y[i+1]) / 2. -/
def np_trapezoid (x y : List ℚ) : ℚ :=
  ∑ i in Finset.range (x.length - 1),
    (x.getD (i + 1) 0 - x.getD i 0) * ((y.getD i 0 + y.getD (i + 1) 0) / 2)

/-- Follows the spec's trapezoid-rule wording, for comparison with the code:
for i in 1..n, width = x[i] - x[i-1], avgHeight = (y[i-1] + y[i]) / 2,
and areaB is the sum of width * avgHeight over all segments. -/
def specTrapezoidArea (n : ℕ) (x y : List ℚ) : ℚ :=
  ∑ i in Finset.Icc 1 n,
    (x.getD i 0 - x.getD (i - 1) 0) * ((y.getD (i - 1) 0 + y.getD i 0) / 2)

/-- Rounding to the nearest integer with ties to even moves a rational by at
most one half. -/
lemma abs_sub_roundHalfEven (q : ℚ) : |q - (roundHalfEven q : ℚ)| ≤ 1 / 2 := by
  have h0 : ((⌊q⌋ : ℚ)) ≤ q := Int.floor_le q
  have h1 : q < (⌊q⌋ : ℚ) + 1 := Int.lt_floor_add_one q
  rw [roundHalfEven]
  split_ifs with hlt hgt hev
  · rw [abs_le]; constructor <;> linarith
  · push_cast
    rw [abs_le]; constructor <;> linarith
  · have heq : q - (⌊q⌋ : ℚ) = 1 / 2 := le_antisymm (not_lt.mp hgt) (not_lt.mp hlt)
    rw [abs_le]; constructor <;> linarith
  · have heq : q - (⌊q⌋ : ℚ) = 1 / 2 := le_antisymm (not_lt.mp hgt) (not_lt.mp hlt)
    push_cast
    rw [abs_le]; constructor <;> linarith

/-- The head of a left scan of addition is the initial accumulator. -/
lemma scanl_add_head? (b : ℚ) (l : List ℚ) :
    (List.scanl (fun a c => a + c) b l).head? = some b := by
  cases l <;> simp

/-- The last entry of a left scan of addition is the initial accumulator plus
the sum of the list. -/
lemma scanl_add_getLast? (l : List ℚ) : ∀ b : ℚ,
    (List.scanl (fun a c => a + c) b l).getLast? = some (b + l.sum) := by
  induction l with
  | nil => intro b; simp
  | cons a l ih =>
    intro b
    rcases l with _ | ⟨c, m⟩
    · simp
    · have h := ih (b + a)
      rw [List.scanl_cons, List.singleton_append] at h
      rw [List.scanl_cons, List.singleton_append, List.scanl_cons,
        List.singleton_append, List.getLast?_cons_cons, h]
      simp only [Option.some.injEq, List.sum_cons]
      ring

/-- Entry i of a left scan of addition is the initial accumulator plus the sum
of the first i list entries. -/
lemma scanl_add_getD (l : List ℚ) : ∀ (b : ℚ) (i : ℕ), i ≤ l.length →
    (List.scanl (fun a c => a + c) b l).getD i 0 = b + (l.take i).sum := by
  induction l with
  | nil =>
    intro b i h
    obtain rfl : i = 0 := Nat.le_zero.mp h
    simp
  | cons a l ih =>
    intro b i h
    rw [List.scanl_cons, List.singleton_append]
    cases i with
    | zero => simp
    | succ i =>
      rw [List.getD_cons_succ, ih (b + a) i (by simpa using h),
        List.take_succ_cons, List.sum_cons]
      ring

/-- A left scan of addition over nonnegative entries is non-decreasing. -/
lemma chain'_scanl_add (l : List ℚ) : ∀ b : ℚ, (∀ x ∈ l, 0 ≤ x) →
    List.Chain' (fun p q => p ≤ q) (List.scanl (fun a c => a + c) b l) := by
  induction l with
  | nil => intro b _; simp
  | cons a l ih =>
    intro b h
    rw [List.scanl_cons, List.singleton_append, List.chain'_cons']
    refine ⟨?_, ih (b + a) fun x hx => h x (List.mem_cons_of_mem a hx)⟩
    intro y hy
    rw [scanl_add_head? (b + a) l] at hy
    simp only [Option.mem_def, Option.some.injEq] at hy
    have ha : 0 ≤ a := h a (List.mem_cons_self a l)
    linarith [hy ▸ (le_refl (b + a))]

/-- Dividing every entry by 100 divides the sum by 100. -/
lemma map_div100_sum (l : List ℚ) : (l.map (fun s => s / 100)).sum = l.sum / 100 := by
  induction l with
  | nil => simp
  | cons a l ih =>
    rw [List.map_cons, List.sum_cons, List.sum_cons, ih]
    ring

/-- cum_y has one more entry than the share table. -/
lemma cumY_length (shares : List ℚ) : (cumY shares).length = shares.length + 1 := by
  rw [cumY, List.length_scanl, List.length_map]

/-- cum_y starts at 0. -/
lemma cumY_head? (shares : List ℚ) : (cumY shares).head? = some 0 :=
  scanl_add_head? 0 _

/-- cum_y ends at the raw total divided by the constant 100. -/
lemma cumY_getLast? (shares : List ℚ) :
    (cumY shares).getLast? = some (shares.sum / 100) := by
  rw [cumY, scanl_add_getLast?, map_div100_sum, zero_add]

/-- Entry i of cum_y is the sum of the first i shares divided by 100. -/
lemma cumY_getD (shares : List ℚ) (i : ℕ) (h : i ≤ shares.length) :
    (cumY shares).getD i 0 = (shares.take i).sum / 100 := by
  rw [cumY, scanl_add_getD _ 0 i (by simpa using h), zero_add,
    ← List.map_take, map_div100_sum]

/-- The uniform grid has n + 1 entries. -/
lemma linspace01_length (n : ℕ) : (linspace01 n).length = n + 1 := by
  rw [linspace01, List.length_map, List.length_range]

/-- Entry i of the uniform grid is i / n. -/
lemma linspace01_getD (n i : ℕ) (h : i ≤ n) :
    (linspace01 n).getD i 0 = (i : ℚ) / n := by
  rw [linspace01, List.getD_eq_getElem?_getD, List.getElem?_map,
    List.getElem?_range (Nat.lt_succ_of_le h)]
  rfl

/-- The uniform grid starts at 0. -/
lemma linspace01_head? (n : ℕ) : (linspace01 n).head? = some 0 := by
  rw [linspace01, List.head?_map, List.range_succ_eq_map]
  simp

/-- The uniform grid ends at 1 as soon as there is at least one segment. -/
lemma linspace01_getLast? (n : ℕ) (h : 1 ≤ n) : (linspace01 n).getLast? = some 1 := by
  have hn : (n : ℚ) ≠ 0 := Nat.cast_ne_zero.mpr (by omega)
  rw [linspace01, List.getLast?_map, List.range_succ, List.getLast?_concat]
  simp [div_self hn]

/-- The uniform grid is non-decreasing. -/
lemma linspace01_chain' (n : ℕ) :
    List.Chain' (fun p q => p ≤ q) (linspace01 n) := by
  rw [linspace01, List.chain'_map]
  rw [show n + 1 = Nat.succ n from rfl, List.chain'_range_succ]
  intro m hm
  have hn : (0 : ℚ) < n := by exact_mod_cast Nat.pos_of_ne_zero (by omega)
  rw [div_le_div_iff_of_pos_right hn]
  push_cast
  linarith

/-- Sum of the first n odd numbers, rationally: n squared. -/
lemma sum_range_two_mul_add_one (n : ℕ) :
    ∑ i in Finset.range n, (2 * (i : ℚ) + 1) = (n : ℚ) ^ 2 := by
  induction n with
  | zero => simp
  | succ n ih =>
    rw [Finset.sum_range_succ, ih]
    push_cast
    ring

/-- Concrete run of the quintile scenario [5, 10, 15, 25, 45]. -/
lemma manualLab_quintiles :
    manualLab [5, 10, 15, 25, 45] = some ⟨31 / 100, 19 / 50⟩ := by
  norm_num [manualLab, current_total, round2, roundHalfEven, area_b, cumY,
    List.scanl, Finset.sum_range_succ, List.getD]

/-- Concrete run of the non-ascending table [100, 0, 0, 0, 0], whose polyline
lies above the diagonal. -/
lemma manualLab_topHeavy :
    manualLab [100, 0, 0, 0, 0] = some ⟨9 / 10, -4 / 5⟩ := by
  norm_num [manualLab, current_total, round2, roundHalfEven, area_b, cumY,
    List.scanl, Finset.sum_range_succ, List.getD]

/-- C1: on every accepted Manual Lab input the displayed Gini equals
(0.5 - areaB) / 0.5 = 1 - 2 * areaB, and the simulator Gini likewise equals
1 - 2 * area_sim for every sample count and exponent. -/
theorem c1_gini_eq_one_sub_two_areaB :
    (∀ (shares : List ℚ) (r : GiniResult), manualLab shares = some r →
      r.gini = 1 - 2 * r.areaB) ∧
    ∀ (n : ℕ) (p : ℝ), g_sim n p = 1 - 2 * area_sim n p := by
  constructor
  · intro shares r h
    by_cases hc : current_total shares = 100
    · rw [manualLab, if_pos hc] at h
      injection h with h
      subst h
      show ((1 : ℚ) / 2 - _) / (1 / 2) = 1 - 2 * _
      ring
    · rw [manualLab, if_neg hc] at h
      exact absurd h (by simp)
  · intro n p
    rw [g_sim]
    ring

/-- Witness for C1 at the accepted input [20, 80]. -/
theorem c1_gini_eq_one_sub_two_areaB_witness :
    manualLab [20, 80] = some ⟨7 / 20, 3 / 10⟩ ∧
    (GiniResult.mk (7 / 20) (3 / 10)).gini
      = 1 - 2 * (GiniResult.mk (7 / 20) (3 / 10)).areaB := by
  have hm : manualLab [20, 80] = some ⟨7 / 20, 3 / 10⟩ := by
    norm_num [manualLab, current_total, round2, roundHalfEven, area_b, cumY,
      List.scanl, Finset.sum_range_succ, List.getD]
  exact ⟨hm, c1_gini_eq_one_sub_two_areaB.1 [20, 80] ⟨7 / 20, 3 / 10⟩ hm⟩

/-- C2 counterexample: the accepted but non-ascending table [100, 0, 0, 0, 0]
is assigned the Gini -4/5, which is negative and differs from the floored
value max(0, 1 - 2 * areaB) = 0, so the result is not clamped into [0, 1]. -/
theorem c2_cex_gini_not_floored :
    manualLab [100, 0, 0, 0, 0] = some ⟨9 / 10, -4 / 5⟩ ∧
    ¬ ((-4 / 5 : ℚ) = max 0 (1 - 2 * (9 / 10 : ℚ))) ∧
    ¬ ((0 : ℚ) ≤ -4 / 5) := by
  refine ⟨manualLab_topHeavy, by norm_num, by norm_num⟩

/-- C2 amended: the Manual Lab applies no floor at 0: the displayed Gini is
the raw 1 - 2 * areaB on every accepted input, and there is an accepted input
on which it is negative. -/
theorem c2_amended_raw_gini_no_floor :
    (∀ (shares : List ℚ) (r : GiniResult), manualLab shares = some r →
      r.gini = 1 - 2 * r.areaB) ∧
    ∃ (shares : List ℚ) (r : GiniResult), manualLab shares = some r ∧ r.gini < 0 := by
  constructor
  · intro shares r h
    by_cases hc : current_total shares = 100
    · rw [manualLab, if_pos hc] at h
      injection h with h
      subst h
      show ((1 : ℚ) / 2 - _) / (1 / 2) = 1 - 2 * _
      ring
    · rw [manualLab, if_neg hc] at h
      exact absurd h (by simp)
  · exact ⟨[100, 0, 0, 0, 0], ⟨9 / 10, -4 / 5⟩, manualLab_topHeavy, by norm_num⟩

/-- Witness for C2 amended at the accepted input [10, 90]. -/
theorem c2_amended_raw_gini_no_floor_witness :
    manualLab [10, 90] = some ⟨3 / 10, 2 / 5⟩ ∧
    (GiniResult.mk (3 / 10) (2 / 5)).gini
      = 1 - 2 * (GiniResult.mk (3 / 10) (2 / 5)).areaB := by
  have hm : manualLab [10, 90] = some ⟨3 / 10, 2 / 5⟩ := by
    norm_num [manualLab, current_total, round2, roundHalfEven, area_b, cumY,
      List.scanl, Finset.sum_range_succ, List.getD]
  exact ⟨hm, c2_amended_raw_gini_no_floor.1 [10, 90] ⟨3 / 10, 2 / 5⟩ hm⟩

/-- C7 counterexample: on the quintile input [5, 10, 15, 25, 45] the exact
trapezoid computation yields areaB = 31/100 = 0.31 and gini = 19/50 = 0.38,
not the claimed 0.315 and 0.37. -/
theorem c7_cex_quintile_values :
    manualLab [5, 10, 15, 25, 45] = some ⟨31 / 100, 19 / 50⟩ ∧
    ¬ ((31 / 100 : ℚ) = 63 / 200) ∧ ¬ ((19 / 50 : ℚ) = 37 / 100) :=
  ⟨manualLab_quintiles, by norm_num, by norm_num⟩

/-- C7 amended: the quintile input [5, 10, 15, 25, 45] produces
cum_y = [0, 0.05, 0.15, 0.30, 0.55, 1], x = [0, 0.2, 0.4, 0.6, 0.8, 1],
areaB = 0.31 and gini = 0.38, in exact arithmetic. -/
theorem c7_amended_quintile_values :
    cumY [5, 10, 15, 25, 45] = [0, 1 / 20, 3 / 20, 3 / 10, 11 / 20, 1] ∧
    linspace01 5 = [0, 1 / 5, 2 / 5, 3 / 5, 4 / 5, 1] ∧
    manualLab [5, 10, 15, 25, 45] = some ⟨31 / 100, 19 / 50⟩ := by
  refine ⟨?_, ?_, manualLab_quintiles⟩
  · norm_num [cumY, List.scanl]
  · norm_num [linspace01, List.range_succ]

/-- C3: for every n >= 1 and every length-n share table with nonnegative
entries summing exactly to 100, the built coordinate lists
x = linspace(0, 1, n + 1) and y = cumsum with leading 0 of shares / 100 both
have length n + 1, are non-decreasing, start at 0 and end at 1. -/
theorem c3_coordinate_postconditions (n : ℕ) (shares : List ℚ)
    (hn : 1 ≤ n) (hlen : shares.length = n)
    (hnn : ∀ s ∈ shares, 0 ≤ s) (hsum : shares.sum = 100) :
    (linspace01 n).length = n + 1 ∧ (cumY shares).length = n + 1 ∧
    List.Chain' (fun p q => p ≤ q) (linspace01 n) ∧
    List.Chain' (fun p q => p ≤ q) (cumY shares) ∧
    (linspace01 n).head? = some 0 ∧ (cumY shares).head? = some 0 ∧
    (linspace01 n).getLast? = some 1 ∧ (cumY shares).getLast? = some 1 := by
  refine ⟨linspace01_length n, by rw [cumY_length, hlen], linspace01_chain' n,
    ?_, linspace01_head? n, cumY_head? shares, linspace01_getLast? n hn, ?_⟩
  · rw [cumY]
    apply chain'_scanl_add
    intro x hx
    obtain ⟨s, hs, rfl⟩ := List.mem_map.mp hx
    have := hnn s hs
    positivity
  · rw [cumY_getLast?, hsum]
    norm_num

/-- Witness for C3 at n = 2, shares [40, 60]. -/
theorem c3_coordinate_postconditions_witness :
    ((1 : ℕ) ≤ 2 ∧ ([40, 60] : List ℚ).sum = 100) ∧
    (cumY [40, 60]).getLast? = some 1 ∧ (linspace01 2).getLast? = some 1 := by
  have h := c3_coordinate_postconditions 2 [40, 60] (by norm_num) (by norm_num)
    (by intro s hs; simp at hs; rcases hs with rfl | rfl <;> norm_num)
    (by norm_num)
  exact ⟨⟨by norm_num, by norm_num⟩, h.2.2.2.2.2.2.2, h.2.2.2.2.2.2.1⟩

/-- C4 counterexample: the positive-sum input [50] is not processed leniently:
the Manual Lab rejects it (no normalization by the actual sum takes place and
nothing is computed), refuting the claim that every positive-sum input
proceeds with shares[i] / sum(shares). -/
theorem c4_cex_positive_sum_rejected :
    (0 : ℚ) < ([50] : List ℚ).sum ∧ manualLab [50] = none := by
  constructor
  · norm_num
  · norm_num [manualLab, current_total, round2, roundHalfEven]

/-- C4 amended: the Manual Lab gates on round(sum, 2) == 100.0 and divides
accepted shares by the constant 100, not by their actual sum: every input is
either rejected with no computation, or accepted with final cumulative
coordinate sum / 100. -/
theorem c4_amended_gate_then_divide_by_100 (shares : List ℚ) :
    manualLab shares = none ∨
      (current_total shares = 100 ∧
        (cumY shares).getLast? = some (shares.sum / 100)) := by
  by_cases hc : current_total shares = 100
  · exact Or.inr ⟨hc, cumY_getLast? shares⟩
  · exact Or.inl (by rw [manualLab, if_neg hc])

/-- C5: whenever the rounded share total differs from 100 (in particular for
the all-zero table), no area and no Gini are computed and the result column
renders the awaiting-valid-input placeholder. -/
theorem c5_invalid_total_no_computation (shares : List ℚ)
    (h : current_total shares ≠ 100) :
    manualLab shares = none ∧
    renderManual shares = ManualView.awaitingValidInput := by
  have hm : manualLab shares = none := by rw [manualLab, if_neg h]
  refine ⟨hm, ?_⟩
  unfold renderManual
  rw [hm]

/-- Witness for C5 at the degenerate all-zero table, whose raw sum is 0. -/
theorem c5_invalid_total_no_computation_witness :
    (current_total [0, 0, 0] ≠ 100 ∧ ([0, 0, 0] : List ℚ).sum = 0) ∧
    manualLab [0, 0, 0] = none ∧
    renderManual [0, 0, 0] = ManualView.awaitingValidInput := by
  have hc : current_total [0, 0, 0] ≠ 100 := by
    norm_num [current_total, round2, roundHalfEven]
  have h := c5_invalid_total_no_computation [0, 0, 0] hc
  exact ⟨⟨hc, by norm_num⟩, h.1, h.2⟩

/-- C8: for every n >= 1, the table of n equal shares 100/n passes the gate
and yields areaB exactly 1/2 and Gini exactly 0, independent of n. -/
theorem c8_equal_shares_gini_zero (n : ℕ) (hn : 1 ≤ n) :
    manualLab (List.replicate n (100 / (n : ℚ))) = some ⟨1 / 2, 0⟩ := by
  have hnQ : ((n : ℚ)) ≠ 0 := Nat.cast_ne_zero.mpr (by omega)
  have hsum : (List.replicate n (100 / (n : ℚ))).sum = 100 := by
    rw [List.sum_replicate, nsmul_eq_mul]
    field_simp
  have hct : current_total (List.replicate n (100 / (n : ℚ))) = 100 := by
    rw [current_total, hsum]
    norm_num [round2, roundHalfEven]
  have hlen : (List.replicate n (100 / (n : ℚ))).length = n :=
    List.length_replicate n _
  have hgetD : ∀ i : ℕ, i ≤ n →
      (cumY (List.replicate n (100 / (n : ℚ)))).getD i 0 = (i : ℚ) / n := by
    intro i hi
    rw [cumY_getD _ i (by rw [hlen]; exact hi), List.take_replicate,
      min_eq_left hi, List.sum_replicate, nsmul_eq_mul]
    field_simp
    ring
  have harea : area_b n (cumY (List.replicate n (100 / (n : ℚ)))) = 1 / 2 := by
    have hterm : ∀ i ∈ Finset.range n,
        (1 / (n : ℚ)) * (((cumY (List.replicate n (100 / (n : ℚ)))).getD i 0
            + (cumY (List.replicate n (100 / (n : ℚ)))).getD (i + 1) 0) / 2)
          = (2 * (i : ℚ) + 1) / (2 * (n : ℚ) ^ 2) := by
      intro i hi
      have hi' : i < n := Finset.mem_range.mp hi
      rw [hgetD i (le_of_lt hi'), hgetD (i + 1) hi']
      push_cast
      field_simp
      ring
    rw [area_b, Finset.sum_congr rfl hterm, ← Finset.sum_div,
      sum_range_two_mul_add_one,
      div_eq_iff (mul_ne_zero two_ne_zero (pow_ne_zero 2 hnQ))]
    ring
  have hgini : ((1 : ℚ) / 2 - 1 / 2) / (1 / 2) = 0 := by norm_num
  rw [manualLab, if_pos hct, hlen, harea, hgini]

/-- Witness for C8 at n = 5, the [20, 20, 20, 20, 20] scenario. -/
theorem c8_equal_shares_gini_zero_witness :
    (1 : ℕ) ≤ 5 ∧ manualLab (List.replicate 5 (100 / (5 : ℚ))) = some ⟨1 / 2, 0⟩ :=
  ⟨by norm_num, c8_equal_shares_gini_zero 5 (by norm_num)⟩

/-- C9: for every n >= 1 and every y of length n + 1 on the uniform grid,
the Manual Lab loop with base 1/n, np.trapezoid over the grid, and the
spec's indexed trapezoid formula over i in 1..n all agree. -/
theorem c9_trapezoid_implementations_agree (n : ℕ) (y : List ℚ)
    (hn : 1 ≤ n) (hy : y.length = n + 1) :
    area_b n y = np_trapezoid (linspace01 n) y ∧
    np_trapezoid (linspace01 n) y = specTrapezoidArea n (linspace01 n) y := by
  have hdiff : ∀ i : ℕ, i < n →
      (linspace01 n).getD (i + 1) 0 - (linspace01 n).getD i 0 = 1 / (n : ℚ) := by
    intro i hi
    have hnQ : ((n : ℚ)) ≠ 0 := Nat.cast_ne_zero.mpr (by omega)
    rw [linspace01_getD n (i + 1) hi, linspace01_getD n i (le_of_lt hi)]
    push_cast
    field_simp
  constructor
  · rw [area_b, np_trapezoid, linspace01_length, Nat.add_sub_cancel]
    refine Finset.sum_congr rfl (fun i hi => ?_)
    rw [hdiff i (Finset.mem_range.mp hi)]
  · rw [np_trapezoid, linspace01_length, Nat.add_sub_cancel, specTrapezoidArea,
      ← Nat.Ico_succ_right, Finset.sum_Ico_eq_sum_range, Nat.succ_sub_one]
    refine Finset.sum_congr rfl (fun i _ => ?_)
    rw [show 1 + i - 1 = i from by omega, show 1 + i = i + 1 from by omega]

/-- Witness for C9 at n = 1, y = [0, 1]. -/
theorem c9_trapezoid_implementations_agree_witness :
    ((1 : ℕ) ≤ 1 ∧ ([0, 1] : List ℚ).length = 1 + 1) ∧
    area_b 1 [0, 1] = np_trapezoid (linspace01 1) [0, 1] ∧
    np_trapezoid (linspace01 1) [0, 1] = specTrapezoidArea 1 (linspace01 1) [0, 1] :=
  ⟨⟨le_refl 1, by norm_num⟩,
    c9_trapezoid_implementations_agree 1 [0, 1] (le_refl 1) (by norm_num)⟩

/-- C10: the acceptance gate round(sum, 2) == 100.0 bounds every accepted raw
total within 0.005 of 100; the final cumulative coordinate is sum / 100,
hence within 5e-5 of 1, yet there is an accepted table whose final
coordinate differs from 1. -/
theorem c10_gate_tolerance (shares : List ℚ)
    (h : current_total shares = 100) :
    |shares.sum - 100| ≤ 1 / 200 ∧
    (cumY shares).getLast? = some (shares.sum / 100) ∧
    |shares.sum / 100 - 1| ≤ 1 / 20000 ∧
    ∃ t : List ℚ, current_total t = 100 ∧ (cumY t).getLast? ≠ some 1 := by
  have hb : |shares.sum - 100| ≤ 1 / 200 := by
    have h1 : (roundHalfEven (shares.sum * 100) : ℚ) = 10000 := by
      rw [current_total, round2, div_eq_iff (by norm_num : (100 : ℚ) ≠ 0)] at h
      rw [h]
      norm_num
    have h2 := abs_sub_roundHalfEven (shares.sum * 100)
    rw [h1, abs_le] at h2
    rw [abs_le]
    constructor <;> linarith
  refine ⟨hb, cumY_getLast? shares, ?_, ?_⟩
  · rw [abs_le] at hb ⊢
    constructor <;> linarith
  · refine ⟨[25001 / 250], ?_, ?_⟩
    · norm_num [current_total, round2, roundHalfEven]
    · rw [cumY_getLast?]
      norm_num

/-- Witness for C10 at the accepted singleton table [100]. -/
theorem c10_gate_tolerance_witness :
    current_total [100] = 100 ∧
    |([100] : List ℚ).sum - 100| ≤ 1 / 200 ∧
    (cumY [100]).getLast? = some (([100] : List ℚ).sum / 100) := by
  have hc : current_total [100] = 100 := by
    norm_num [current_total, round2, roundHalfEven]
  have h := c10_gate_tolerance [100] hc
  exact ⟨hc, h.1, h.2.1⟩

/-- C6: with the simulator's 100 sample points, the trapezoid Gini of the
power-law curve x ^ p is strictly increasing in the exponent on (1, ∞). -/
theorem c6_gini_strict_mono_in_exponent (p1 p2 : ℝ) (h1 : 1 < p1) (h2 : p1 < p2) :
    g_sim 100 p1 < g_sim 100 p2 := by
  have hp1 : (0 : ℝ) < p1 := lt_trans one_pos h1
  have hp2 : (0 : ℝ) < p2 := lt_trans hp1 h2
  have hy_le : ∀ i : ℕ, i ≤ 100 →
      (get_lorenz_coords 100 p2).2 i ≤ (get_lorenz_coords 100 p1).2 i := by
    intro i hi
    show ((i : ℝ) / 100) ^ p2 ≤ ((i : ℝ) / 100) ^ p1
    rcases Nat.eq_zero_or_pos i with rfl | hip
    · rw [Nat.cast_zero, zero_div, Real.zero_rpow (ne_of_gt hp1),
        Real.zero_rpow (ne_of_gt hp2)]
    · have hx0 : (0 : ℝ) < (i : ℝ) / 100 := by
        have : (0 : ℝ) < (i : ℝ) := by exact_mod_cast hip
        positivity
      have hx1 : (i : ℝ) / 100 ≤ 1 := by
        rw [div_le_one (by norm_num)]
        exact_mod_cast hi
      exact Real.rpow_le_rpow_of_exponent_ge hx0 hx1 (le_of_lt h2)
  have hxd : ∀ (p : ℝ) (i : ℕ),
      (get_lorenz_coords 100 p).1 (i + 1) - (get_lorenz_coords 100 p).1 i
        = 1 / 100 := by
    intro p i
    show ((i + 1 : ℕ) : ℝ) / 100 - (i : ℝ) / 100 = 1 / 100
    push_cast
    ring
  have harea : area_sim 100 p2 < area_sim 100 p1 := by
    rw [area_sim, area_sim]
    apply Finset.sum_lt_sum
    · intro i hi
      have hi' : i + 1 ≤ 100 := Finset.mem_range.mp hi
      rw [hxd p1 i, hxd p2 i]
      have a1 := hy_le i (le_trans (Nat.le_succ i) hi')
      have a2 := hy_le (i + 1) hi'
      have hmul : ((get_lorenz_coords 100 p2).2 i
            + (get_lorenz_coords 100 p2).2 (i + 1)) / 2
          ≤ ((get_lorenz_coords 100 p1).2 i
            + (get_lorenz_coords 100 p1).2 (i + 1)) / 2 := by linarith
      exact mul_le_mul_of_nonneg_left hmul (by norm_num)
    · refine ⟨0, Finset.mem_range.mpr (by norm_num), ?_⟩
      rw [hxd p1 0, hxd p2 0]
      have hy0 : ∀ p : ℝ, 0 < p → (get_lorenz_coords 100 p).2 0 = 0 := by
        intro p hp
        show (((0 : ℕ) : ℝ) / 100) ^ p = 0
        rw [Nat.cast_zero, zero_div, Real.zero_rpow (ne_of_gt hp)]
      have hy1 : (get_lorenz_coords 100 p2).2 1 < (get_lorenz_coords 100 p1).2 1 := by
        show (((1 : ℕ) : ℝ) / 100) ^ p2 < (((1 : ℕ) : ℝ) / 100) ^ p1
        rw [Nat.cast_one]
        exact Real.rpow_lt_rpow_of_exponent_gt (by norm_num) (by norm_num) h2
      rw [hy0 p1 hp1, hy0 p2 hp2]
      have : (0 : ℝ) + (get_lorenz_coords 100 p2).2 1
          < 0 + (get_lorenz_coords 100 p1).2 1 := by linarith
      nlinarith
  have e : ∀ p : ℝ, g_sim 100 p = 1 - 2 * area_sim 100 p := by
    intro p
    rw [g_sim]
    ring
  rw [e p1, e p2]
  linarith

/-- Witness for C6 at the exponent pair (2, 3). -/
theorem c6_gini_strict_mono_in_exponent_witness :
    (1 : ℝ) < 2 ∧ (2 : ℝ) < 3 ∧ g_sim 100 2 < g_sim 100 3 :=
  ⟨by norm_num, by norm_num,
    c6_gini_strict_mono_in_exponent 2 3 (by norm_num) (by norm_num)⟩

end LorenzApp
